import Mathlib

/-!
Verification of the bounded concurrent pipeline execution engine described by
the concurrency-patterns material of the repository (worker pools, fan-out/fan-in,
token-bucket rate limiting, bounded-parallelism semaphores, staged pipelines).
Components that have no implementation in the repository (the guide shows only
illustrative snippets) are modelled from the spec; the snippets themselves
(worker, gen, sq, safelyDo, channel close semantics, channel-as-semaphore) are
embedded from the source.
-/

namespace GoGuide

/-! ## Pipeline lifecycle state machine -/

/-- Modelled from the spec: the Pipeline component is not implemented in the
repository (the cited snippet only shows one-time initialization). States of
the Pipeline lifecycle. -/
inductive PipeState where
  | created
  | running
  | draining
  | completed
  | cancelling
  | cancelled
deriving DecidableEq, Repr

/-- Modelled from the spec: a Pipeline configuration is its lifecycle state
together with the number of workers it has spawned. -/
structure Pipeline where
  st : PipeState
  workers : Nat
deriving DecidableEq, Repr

/-- Modelled from the spec: the legal lifecycle transitions
Created → Running → \x7bDraining → Completed, Cancelling → Cancelled\x7d, where
starting spawns the configured W workers and Cancel from Created goes directly
to Cancelled without spawning workers. -/
inductive PipeStep (W : Nat) : Pipeline → Pipeline → Prop where
  | start : PipeStep W ⟨.created, 0⟩ ⟨.running, W⟩
  | drain (w : Nat) : PipeStep W ⟨.running, w⟩ ⟨.draining, w⟩
  | complete (w : Nat) : PipeStep W ⟨.draining, w⟩ ⟨.completed, w⟩
  | cancelFromCreated : PipeStep W ⟨.created, 0⟩ ⟨.cancelled, 0⟩
  | cancelFromRunning (w : Nat) : PipeStep W ⟨.running, w⟩ ⟨.cancelling, w⟩
  | finishCancel (w : Nat) : PipeStep W ⟨.cancelling, w⟩ ⟨.cancelled, w⟩

/-- Rank of a lifecycle state in the forward order of the state machine. -/
def PipeState.rank : PipeState → Nat
  | .created => 0
  | .running => 1
  | .draining => 2
  | .cancelling => 2
  | .completed => 3
  | .cancelled => 3

/-- Modelled from the spec: the effect of one Cancel() call on the lifecycle
state.  Cancel from Created goes directly to Cancelled, Cancel from Running
starts cancelling, and Cancel anywhere else changes nothing. -/
def PipeState.cancel : PipeState → PipeState
  | .created => .cancelled
  | .running => .cancelling
  | .draining => .draining
  | .completed => .completed
  | .cancelling => .cancelling
  | .cancelled => .cancelled

/-! ## Bounded semaphore -/

/-- One semaphore transition, as in the source snippet where a buffered channel
of capacity K is the semaphore: an acquire (send) is only possible while the
held count is below K, a release (receive) is only possible while some slot is
held. -/
inductive SemStep (K : Int) : Int → Int → Prop where
  | acquire (c : Int) : c < K → SemStep K c (c + 1)
  | release (c : Int) : 0 < c → SemStep K c (c - 1)

/-- Held counts reachable from an idle semaphore by any interleaving of
acquires and releases. -/
inductive SemReach (K : Int) : Int → Prop where
  | init : SemReach K 0
  | step (c d : Int) : SemReach K c → SemStep K c d → SemReach K d

/-! ## Bounded queue -/

/-- Result of a Put on the bounded queue. -/
inductive PutResult (α : Type) where
  | ok (q : α)
  | closedError
  | wouldBlock
deriving DecidableEq, Repr

/-- Result of a Get on the bounded queue. -/
inductive GetResult (α : Type) where
  | item (a : α)
  | closedEmpty
  | wouldBlock
deriving DecidableEq, Repr

/-- Modelled from the spec: a fixed-capacity blocking queue with an explicit
close signal (the repository only shows Go channels, whose buffer, close and
two-value receive the model follows). -/
structure BQueue (α : Type) where
  cap : Nat
  buf : List α
  closed : Bool
deriving DecidableEq, Repr

/-- Put appends to the buffer; it fails with a ClosedError once the queue is
closed and would block while the buffer is full. -/
def BQueue.put (q : BQueue α) (x : α) : PutResult (BQueue α) :=
  if q.closed then .closedError
  else if q.buf.length < q.cap then .ok { q with buf := q.buf ++ [x] }
  else .wouldBlock

/-- Get takes the oldest buffered item; on an empty closed queue it reports
closed-and-empty, on an empty open queue it would block. -/
def BQueue.get (q : BQueue α) : GetResult α × BQueue α :=
  match q.buf with
  | x :: rest => (.item x, { q with buf := rest })
  | [] => if q.closed then (.closedEmpty, q) else (.wouldBlock, q)

/-- Repeatedly call Get for as long as it yields an item, collecting the
items in the order Get returns them, and return the queue state in which
Get first reported closed-and-empty (or would have blocked). -/
def BQueue.drainAll (q : BQueue α) : List α × BQueue α :=
  match h : q.get with
  | (GetResult.item x, q2) =>
    let p := q2.drainAll
    (x :: p.1, p.2)
  | (GetResult.closedEmpty, q2) => ([], q2)
  | (GetResult.wouldBlock, q2) => ([], q2)
termination_by q.buf.length
decreasing_by
  simp only [BQueue.get] at h
  cases hb : q.buf with
  | nil =>
    rw [hb] at h
    split_ifs at h <;> simp at h
  | cons y ys =>
    rw [hb] at h
    simp only at h
    have hq2 : q2 = { q with buf := ys } := by
      injection h with h1 h2
      exact h2.symm
    rw [hq2]
    simp

/-! ## Rate limiter (token bucket with lazy refill) -/

/-- Modelled from the spec: the RateLimiter is a token bucket whose refill is
computed lazily at acquisition time from elapsed wall-clock time (the
repository snippet uses a ticker instead).  Time and tokens are rationals. -/
structure Bucket where
  cap : ℚ
  rate : ℚ
  tokens : ℚ
  lastTime : ℚ
  successes : Nat
deriving DecidableEq, Repr

/-- Lazy refill at time now: tokens = min(capacity, tokens + elapsed*rate). -/
def Bucket.refill (b : Bucket) (now : ℚ) : Bucket :=
  { b with tokens := min b.cap (b.tokens + (now - b.lastTime) * b.rate),
           lastTime := now }

/-- One Acquire attempt at time now: refill lazily, then take one token when a
whole token is available, counting the success. -/
def Bucket.tryAcquire (b : Bucket) (now : ℚ) : Bucket × Bool :=
  let r := b.refill now
  if 1 ≤ r.tokens then
    ({ r with tokens := r.tokens - 1, successes := r.successes + 1 }, true)
  else (r, false)

/-- Run a sequence of Acquire attempts at the given timestamps. -/
def Bucket.runAcquires (b : Bucket) : List ℚ → Bucket
  | [] => b
  | u :: us => Bucket.runAcquires (b.tryAcquire u).1 us

/-- A bucket that starts full at time 0, with capacity C and rate R. -/
def fullBucket (C R : ℚ) : Bucket := ⟨C, R, C, 0, 0⟩

/-! ## Worker pool (fan-out / fan-in) -/

/-- Modelled from the spec: a Stage is a worker pool of W workers draining one
input queue and publishing one Result per task; the repository snippet shows
the concrete three-worker pool.  Tasks are tagged with sequence numbers;
pending tasks wait in submission order, at most W are in flight at once, and
finished Results are appended to the output in completion order. -/
structure PoolState (α β : Type) where
  pending : List (Nat × α)
  working : List (Nat × α)
  output : List (Nat × β)
deriving DecidableEq, Repr

/-- One scheduler step of a W-worker pool applying transform f: an idle worker
takes the next pending task, or a busy worker finishes its task and publishes
the Result (j * 2 in the source worker becomes a generic f). -/
inductive PoolStep (W : Nat) (f : α → β) : PoolState α β → PoolState α β → Prop where
  | take (s : PoolState α β) (j : Nat × α) (rest : List (Nat × α)) :
      s.working.length < W → s.pending = j :: rest →
      PoolStep W f s { s with pending := rest, working := j :: s.working }
  | finish (s : PoolState α β) (j : Nat × α) (l r : List (Nat × α)) :
      s.working = l ++ j :: r →
      PoolStep W f s { s with working := l ++ r,
                              output := s.output ++ [(j.1, f j.2)] }

/-- Pool states reachable from a given state by any interleaving of steps. -/
inductive PoolReach (W : Nat) (f : α → β) : PoolState α β → PoolState α β → Prop where
  | refl (s : PoolState α β) : PoolReach W f s s
  | tail (s t u : PoolState α β) :
      PoolReach W f s t → PoolStep W f t u → PoolReach W f s u

/-- Initial pool state: N submitted tasks tagged with sequence numbers
0,...,N-1 in submission order, no worker busy, nothing published. -/
def initPool (ns : List α) : PoolState α β :=
  ⟨ns.enum, [], []⟩

/-- A pool state is terminal when the input is drained and every worker is
idle, which is when the pool closes its output. -/
def PoolState.terminal (s : PoolState α β) : Prop :=
  s.pending = [] ∧ s.working = []

/-- Stage 1 transform of the concrete two-stage scenario, from the source
worker body: results <- j * 2. -/
def double (j : Int) : Int := j * 2

/-- Stage 2 transform, from the source sq stage body: out <- n * n. -/
def square (n : Int) : Int := n * n

/-! ## Per-task failure recovery (safelyDo) -/

/-- Outcome of running one transform: a value, or abrupt termination with a
panic message. -/
inductive Outcome (β : Type) where
  | ok (b : β)
  | panicked (msg : String)
deriving DecidableEq, Repr

/-- From the source safelyDo: run the work under a deferred recover, so an
abrupt termination is caught and turned into a per-task error Result rather
than propagating. -/
def safelyDo (d : α → Outcome β) (t : Nat × α) : Nat × Except String β :=
  match d t.2 with
  | .ok b => (t.1, .ok b)
  | .panicked m => (t.1, .error m)

/-- A worker that wraps every task in safelyDo: each failure is recovered
locally and the loop continues with the remaining tasks. -/
def workerLoopSafe (d : α → Outcome β) : List (Nat × α) → List (Nat × Except String β)
  | [] => []
  | t :: ts => safelyDo d t :: workerLoopSafe d ts

/-- A worker without the recover wrapper: the first abrupt termination kills
the loop, dropping all remaining tasks (what the spec forbids). -/
def workerLoopUnguarded (d : α → Outcome β) :
    List (Nat × α) → List (Nat × Except String β) × Option String
  | [] => ([], none)
  | t :: ts =>
    match d t.2 with
    | .ok b =>
      let p := workerLoopUnguarded d ts
      ((t.1, Except.ok b) :: p.1, p.2)
    | .panicked m => ([], some m)

/-! ## FanIn -/

/-- Modelled from the spec: FanIn over M upstreams runs one relay per
upstream; the merged output closes exactly when the count of still-open
upstreams reaches zero.  Each upstream holds its not-yet-relayed items and a
closed flag; relayDone i records that relay i has observed its upstream
closed. -/
structure FanState (α : Type) (M : Nat) where
  up : Fin M → List α
  upClosed : Fin M → Bool
  relayDone : Fin M → Bool

/-- Output items of a fan-in state are implicit in the difference between the
initial and current upstream buffers; we carry them explicitly instead. -/
structure FanConfig (α : Type) (M : Nat) where
  fs : FanState α M
  out : List α

/-- One fan-in step: an upstream closes, a relay pumps the next item of its
upstream to the shared output, or a relay that sees its upstream closed and
drained marks itself done (decrementing the still-open counter). -/
inductive FanStep (M : Nat) : FanConfig α M → FanConfig α M → Prop where
  | closeUp (c : FanConfig α M) (i : Fin M) :
      c.fs.upClosed i = false →
      FanStep M c ⟨{ c.fs with upClosed := Function.update c.fs.upClosed i true }, c.out⟩
  | pump (c : FanConfig α M) (i : Fin M) (x : α) (rest : List α) :
      c.fs.relayDone i = false → c.fs.up i = x :: rest →
      FanStep M c ⟨{ c.fs with up := Function.update c.fs.up i rest }, c.out ++ [x]⟩
  | relayClose (c : FanConfig α M) (i : Fin M) :
      c.fs.relayDone i = false → c.fs.upClosed i = true → c.fs.up i = [] →
      FanStep M c ⟨{ c.fs with relayDone := Function.update c.fs.relayDone i true }, c.out⟩

/-- Fan-in configurations reachable by any interleaving of steps, i.e. under
any closing order of the upstreams. -/
inductive FanReach (M : Nat) : FanConfig α M → FanConfig α M → Prop where
  | refl (c : FanConfig α M) : FanReach M c c
  | tail (c d e : FanConfig α M) :
      FanReach M c d → FanStep M d e → FanReach M c e

/-- Initial fan-in configuration for upstream contents us: nothing relayed,
no upstream closed, no relay done. -/
def initFan (us : Fin M → List α) : FanConfig α M :=
  ⟨⟨us, fun _ => false, fun _ => false⟩, []⟩

/-- The merged output is closed exactly when every relay has observed its
upstream closed (the still-open counter has reached zero). -/
def FanConfig.outClosed (c : FanConfig α M) : Prop :=
  ∀ i, c.fs.relayDone i = true

/-! ## The gen / sq channel pipeline -/

/-- From the source pipeline example: configuration of the two goroutines gen
and sq joined by an unbuffered channel.  toSend is what gen has left to send,
chan the value handed off but not yet received, genClosed whether gen has
closed its channel, out what sq has emitted and outClosed whether sq has
closed its output. -/
structure GSState where
  toSend : List Int
  chan : Option Int
  genClosed : Bool
  out : List Int
  outClosed : Bool
deriving DecidableEq, Repr

/-- One step of the gen/sq pipeline: gen hands its next number to the
unbuffered channel (out <- n), gen closes after the last handoff (close(out)),
sq receives a number and emits its square (out <- n * n), and sq closes once
the range loop sees the input closed and drained. -/
inductive GSStep : GSState → GSState → Prop where
  | send (s : GSState) (n : Int) (rest : List Int) :
      s.chan = none → s.toSend = n :: rest →
      GSStep s { s with toSend := rest, chan := some n }
  | genClose (s : GSState) :
      s.toSend = [] → s.chan = none → s.genClosed = false →
      GSStep s { s with genClosed := true }
  | recvEmit (s : GSState) (n : Int) :
      s.chan = some n →
      GSStep s { s with chan := none, out := s.out ++ [n * n] }
  | sqClose (s : GSState) :
      s.genClosed = true → s.chan = none → s.outClosed = false →
      GSStep s { s with outClosed := true }

/-- Pipeline configurations reachable by the two goroutines from a start. -/
inductive GSReach : GSState → GSState → Prop where
  | refl (s : GSState) : GSReach s s
  | tail (s t u : GSState) : GSReach s t → GSStep t u → GSReach s u

/-- Initial configuration of sq(gen(ns...)). -/
def initGS (ns : List Int) : GSState := ⟨ns, none, false, [], false⟩

/-- The naive sequential map the pipeline is claimed to implement (the
specification-side definition of the two-stage computation). -/
def naiveSquareMap (ns : List Int) : List Int := ns.map (fun n => n * n)

/-! ## Derived quantities used by the invariants -/

/-- The bag of Results a pool run accounts for: Results already published,
plus the Results the in-flight and still-pending tasks will produce. -/
def poolBag (f : α → β) (s : PoolState α β) : Multiset (Nat × β) :=
  ↑s.output + ↑(s.working.map (fun p => (p.1, f p.2)))
    + ↑(s.pending.map (fun p => (p.1, f p.2)))

/-- The bag of items a fan-in run accounts for: items already merged to the
output plus items still buffered in the upstreams. -/
def fanBag (c : FanConfig α M) : Multiset α :=
  ↑c.out + ∑ i, (↑(c.fs.up i) : Multiset α)

/-- Invariant of the gen/sq pipeline: the output is the squares of a prefix
of the input, the channel and the gen backlog hold exactly the rest in
order, gen closes only after its last handoff, and sq closes only after
gen. -/
def GSInv (ns : List Int) (s : GSState) : Prop :=
  ∃ k, s.out = (ns.take k).map (fun n => n * n) ∧
    ((s.chan = none ∧ s.toSend = ns.drop k) ∨
     (∃ n, s.chan = some n ∧ ns.drop k = n :: s.toSend)) ∧
    (s.genClosed = true → s.toSend = [] ∧ s.chan = none) ∧
    (s.outClosed = true → s.genClosed = true)

/-- Invariant of a single-worker stage: the output is the image of a prefix
of the submitted tasks in submission order, and the lone worker and the
pending queue hold exactly the rest in order. -/
def SingleInv (f : α → β) (ns : List α) (s : PoolState α β) : Prop :=
  ∃ k, s.output = (ns.enum.take k).map (fun p => (p.1, f p.2)) ∧
    ((s.working = [] ∧ s.pending = ns.enum.drop k) ∨
     (∃ j, s.working = [j] ∧ ns.enum.drop k = j :: s.pending))

/-- Invariant of fan-in: a relay marks itself done only after its upstream
has closed and it has relayed every buffered item. -/
def FanDoneInv (c : FanConfig α M) : Prop :=
  ∀ i, c.fs.relayDone i = true → c.fs.up i = [] ∧ c.fs.upClosed i = true

/-- Invariant of the token bucket: capacity and rate are fixed, the token
count stays within [0, C], and counted successes plus remaining tokens never
exceed the initial capacity plus everything refilled up to the last refill
instant. -/
def BucketInv (C R : ℚ) (b : Bucket) : Prop :=
  b.cap = C ∧ b.rate = R ∧ 0 ≤ b.tokens ∧ b.tokens ≤ C ∧
    (b.successes : ℚ) + b.tokens ≤ C + R * b.lastTime

end GoGuide

namespace GoGuide

/-! ## Helper lemmas -/

/-- Dropping k elements leaving a cons determines the k-prefix and the rest. -/
theorem take_succ_of_drop_cons {γ : Type} :
    ∀ (k : Nat) (l : List γ) (a : γ) (t : List γ), l.drop k = a :: t →
      l.take (k + 1) = l.take k ++ [a] ∧ l.drop (k + 1) = t := by
  intro k
  induction k with
  | zero =>
    intro l a t h
    simp only [List.drop_zero] at h
    subst h
    simp
  | succ k ih =>
    intro l a t h
    cases l with
    | nil => simp at h
    | cons x xs =>
      simp only [List.drop_succ_cons] at h
      have := ih xs a t h
      simp [List.take_succ_cons, List.drop_succ_cons, this.1, this.2]

/-- A chain is preserved by taking a prefix. -/
theorem chain_take {γ : Type} {r : γ → γ → Prop} :
    ∀ (l : List γ) (a : γ), List.Chain r a l → ∀ k, List.Chain r a (l.take k) := by
  intro l
  induction l with
  | nil => intro a _ k; simp
  | cons x xs ih =>
    intro a h k
    cases k with
    | zero => simp
    | succ k =>
      cases h with
      | cons hax hchain => exact List.Chain.cons hax (ih x hchain k)

/-- Repeated Gets on a closed queue yield exactly the buffered items, in
buffer order, and end on the emptied closed queue. -/
theorem drainAll_closed {α : Type} :
    ∀ (l : List α) (c : Nat),
      (BQueue.mk c l true).drainAll = (l, BQueue.mk c [] true) := by
  intro l
  induction l with
  | nil =>
    intro c
    rw [BQueue.drainAll]
    simp [BQueue.get]
  | cons x xs ih =>
    intro c
    rw [BQueue.drainAll]
    simp [BQueue.get, ih c]

/-- The safe worker loop maps safelyDo over the tasks, homomorphically over
append. -/
theorem workerLoopSafe_append {α β : Type} (d : α → Outcome β) :
    ∀ (l₁ l₂ : List (Nat × α)),
      workerLoopSafe d (l₁ ++ l₂) = workerLoopSafe d l₁ ++ workerLoopSafe d l₂ := by
  intro l₁ l₂
  induction l₁ with
  | nil => rfl
  | cons t ts ih => simp [workerLoopSafe, ih]

/-- The safe worker loop yields exactly one Result per task. -/
theorem workerLoopSafe_length {α β : Type} (d : α → Outcome β) :
    ∀ l : List (Nat × α), (workerLoopSafe d l).length = l.length := by
  intro l
  induction l with
  | nil => rfl
  | cons t ts ih => simp [workerLoopSafe, ih]

/-- One pool step neither drops nor duplicates a Result: the bag of Results
accounted for is unchanged. -/
theorem poolBag_step {α β : Type} {W : Nat} {f : α → β} {s t : PoolState α β}
    (h : PoolStep W f s t) : poolBag f t = poolBag f s := by
  cases h with
  | take j rest hw hp =>
    simp only [poolBag, hp, List.map_cons, ← Multiset.cons_coe,
      ← Multiset.singleton_add]
    abel
  | finish j l r hw =>
    simp only [poolBag, hw, List.map_append, List.map_cons,
      ← Multiset.coe_add, ← Multiset.cons_coe, ← Multiset.singleton_add]
    abel

/-- A pool run preserves the bag of Results accounted for. -/
theorem poolBag_reach {α β : Type} {W : Nat} {f : α → β} {s t : PoolState α β}
    (h : PoolReach W f s t) : poolBag f t = poolBag f s := by
  induction h with
  | refl => rfl
  | tail t u _ hstep ih => rw [poolBag_step hstep, ih]

/-- A terminal pool run on submitted tasks ns has published exactly the image
of the tagged tasks, as a bag. -/
theorem pool_output_bag {α β : Type} {W : Nat} {f : α → β} {ns : List α}
    {s : PoolState α β} (h : PoolReach W f (initPool ns) s)
    (hterm : s.terminal) :
    (↑s.output : Multiset (Nat × β)) = ↑(ns.enum.map (fun p => (p.1, f p.2))) := by
  have hb := poolBag_reach h
  rcases hterm with ⟨hp, hw⟩
  simp only [poolBag, initPool, hp, hw, List.map_nil] at hb
  simpa using hb

/-- A terminal pool run publishes the values f over the submitted payloads,
as a bag. -/
theorem pool_output_values {α β : Type} {W : Nat} {f : α → β} {ns : List α}
    {s : PoolState α β} (h : PoolReach W f (initPool ns) s)
    (hterm : s.terminal) :
    (↑(s.output.map Prod.snd) : Multiset β) = Multiset.map f ↑ns := by
  have hb := pool_output_bag h hterm
  have hperm : s.output.Perm (ns.enum.map (fun p => (p.1, f p.2))) :=
    Multiset.coe_eq_coe.mp hb
  have h2 : (s.output.map Prod.snd).Perm
      ((ns.enum.map (fun p => (p.1, f p.2))).map Prod.snd) := hperm.map _
  have h3 : (ns.enum.map (fun p => (p.1, f p.2))).map Prod.snd
      = ns.map f := by
    rw [List.map_map]
    have hc : (Prod.snd ∘ fun p : Nat × α => (p.1, f p.2)) = f ∘ Prod.snd := rfl
    rw [hc, ← List.map_map, List.enum_map_snd]
  rw [Multiset.map_coe]
  exact Multiset.coe_eq_coe.mpr (h2.trans (by rw [h3]))

/-- The single-worker invariant holds along every run of a one-worker stage. -/
theorem single_inv_reach {α β : Type} {f : α → β} {ns : List α}
    {s : PoolState α β} (h : PoolReach 1 f (initPool ns) s) :
    SingleInv f ns s := by
  induction h with
  | refl => exact ⟨0, by simp [initPool]⟩
  | tail t u _ hstep ih =>
    rcases ih with ⟨k, hout, hrest⟩
    cases hstep with
    | take j rest hwlen hpend =>
      rcases hrest with ⟨hw, hp⟩ | ⟨j0, hw, hp⟩
      · refine ⟨k, by simpa using hout, Or.inr ⟨j, by simp [hw], ?_⟩⟩
        simp only [hp] at hpend ⊢
        rw [hpend]
      · rw [hw] at hwlen
        simp at hwlen
    | finish j l r hw =>
      rcases hrest with ⟨hw0, hp⟩ | ⟨j0, hw0, hp⟩
      · rw [hw0] at hw
        exact absurd hw.symm (List.append_ne_nil_of_right_ne_nil l (List.cons_ne_nil j r))
      · have hlr : l = [] ∧ j = j0 ∧ r = [] := by
          rw [hw0] at hw
          cases l with
          | nil =>
            simp only [List.nil_append] at hw
            injection hw with h1 h2
            exact ⟨rfl, h1.symm, h2.symm⟩
          | cons a as => simp at hw
        rcases hlr with ⟨hl, hj, hr⟩
        have hdrop := take_succ_of_drop_cons k ns.enum j0 t.pending hp
        refine ⟨k + 1, ?_, Or.inl ⟨by simp [hl, hr], by simp [hdrop.2]⟩⟩
        simp only [hout, hj, hdrop.1, List.map_append, List.map_cons, List.map_nil]

/-- Projecting sequence numbers out of the image of the tagged tasks gives
the submission sequence numbers. -/
theorem enum_image_fst {α β : Type} (f : α → β) (ns : List α) :
    (ns.enum.map (fun p => (p.1, f p.2))).map Prod.fst = List.range ns.length := by
  rw [List.map_map]
  have hc : (Prod.fst ∘ fun p : Nat × α => (p.1, f p.2)) = Prod.fst := rfl
  rw [hc, List.enum_map_fst]

/-- Projecting values out of the image of the tagged tasks gives the mapped
payloads in submission order. -/
theorem enum_image_snd {α β : Type} (f : α → β) (ns : List α) :
    (ns.enum.map (fun p => (p.1, f p.2))).map Prod.snd = ns.map f := by
  rw [List.map_map]
  have hc : (Prod.snd ∘ fun p : Nat × α => (p.1, f p.2)) = f ∘ Prod.snd := rfl
  rw [hc, ← List.map_map, List.enum_map_snd]

/-- C1: a single Stage with W ≥ 1 workers, given N submitted tasks and then a
close, publishes exactly N Results in every complete (terminal) run: the
published sequence numbers are a permutation of 0,...,N-1, so none is dropped
and none is duplicated. -/
theorem stage_exactly_n_results {α β : Type} (W : Nat) (hW : 1 ≤ W)
    (f : α → β) (ns : List α) (s : PoolState α β)
    (h : PoolReach W f (initPool ns) s) (hterm : s.terminal) :
    s.output.length = ns.length ∧
    (s.output.map Prod.fst).Perm (List.range ns.length) ∧
    (s.output.map Prod.fst).Nodup := by
  have hb := pool_output_bag h hterm
  have hperm : s.output.Perm (ns.enum.map fun p => (p.1, f p.2)) :=
    Multiset.coe_eq_coe.mp hb
  have hlen : s.output.length = ns.length := by
    rw [hperm.length_eq, List.length_map, List.enum_length]
  have hfst : (s.output.map Prod.fst).Perm (List.range ns.length) := by
    have h2 := hperm.map Prod.fst
    rwa [enum_image_fst] at h2
  exact ⟨hlen, hfst, hfst.nodup_iff.mpr (List.nodup_range _)⟩

/-- Witness for C1: one worker, one submitted task 5 under the doubling
transform, run to completion: one Result, tagged 0. -/
theorem stage_exactly_n_results_witness :
    (PoolState.mk (α := Int) (β := Int) [] [] [(0, 10)]).output.length
      = ([5] : List Int).length ∧
    ((PoolState.mk (α := Int) (β := Int) [] [] [(0, 10)]).output.map Prod.fst).Perm
      (List.range ([5] : List Int).length) := by
  have h1 : PoolStep 1 double (initPool [(5 : Int)])
      (PoolState.mk [] [(0, 5)] []) :=
    PoolStep.take (initPool [(5 : Int)]) (0, 5) [] (by decide) rfl
  have h2 : PoolStep 1 double (PoolState.mk (β := Int) [] [(0, (5 : Int))] [])
      (PoolState.mk [] [] [(0, 10)]) :=
    PoolStep.finish (PoolState.mk [] [(0, 5)] []) (0, 5) [] [] rfl
  have hr : PoolReach 1 double (initPool [(5 : Int)])
      (PoolState.mk [] [] [(0, 10)]) :=
    PoolReach.tail _ _ _ (PoolReach.tail _ _ _ (PoolReach.refl _) h1) h2
  have h := stage_exactly_n_results 1 (by decide) double [5] _ hr ⟨rfl, rfl⟩
  exact ⟨h.1, h.2.1⟩

/-- C9: a stage configured with exactly one worker preserves submission order
end to end: in every complete run the output values are exactly the mapped
inputs in submission order (and the sequence tags are 0,...,N-1 in order);
with more than one worker no such ordering holds, witnessed by a complete
two-worker run whose outputs are out of submission order. -/
theorem single_worker_order {α β : Type} (f : α → β) (ns : List α)
    (s : PoolState α β) (h : PoolReach 1 f (initPool ns) s)
    (hterm : s.terminal) :
    (s.output.map Prod.snd = ns.map f ∧
     s.output.map Prod.fst = List.range ns.length) ∧
    ∃ t : PoolState Int Int, PoolReach 2 (fun x => x) (initPool [10, 20]) t ∧
      t.terminal ∧ t.output.map Prod.snd ≠ [10, 20] := by
  constructor
  · rcases single_inv_reach h with ⟨k, hout, hrest⟩
    rcases hterm with ⟨hp, hw⟩
    have hdrop : ns.enum.drop k = [] := by
      rcases hrest with ⟨_, hpend⟩ | ⟨j, hwj, _⟩
      · rw [← hpend, hp]
      · rw [hwj] at hw
        simp at hw
    have htake : ns.enum.take k = ns.enum :=
      List.take_of_length_le (List.drop_eq_nil_iff.mp hdrop)
    rw [htake] at hout
    rw [hout]
    exact ⟨enum_image_snd f ns, enum_image_fst f ns⟩
  · refine ⟨PoolState.mk [] [] [(1, 20), (0, 10)], ?_, ⟨rfl, rfl⟩, by decide⟩
    have h1 : PoolStep 2 (fun x : Int => x) (initPool [(10 : Int), 20])
        (PoolState.mk [(1, 20)] [(0, 10)] []) :=
      PoolStep.take (initPool [(10 : Int), 20]) (0, 10) [(1, 20)] (by decide) rfl
    have h2 : PoolStep 2 (fun x : Int => x)
        (PoolState.mk (β := Int) [(1, (20 : Int))] [(0, 10)] [])
        (PoolState.mk [] [(1, 20), (0, 10)] []) :=
      PoolStep.take (PoolState.mk [(1, 20)] [(0, 10)] []) (1, 20) [] (by decide) rfl
    have h3 : PoolStep 2 (fun x : Int => x)
        (PoolState.mk (β := Int) [] [((1 : Nat), (20 : Int)), (0, 10)] [])
        (PoolState.mk [] [(0, 10)] [(1, 20)]) :=
      PoolStep.finish (PoolState.mk [] [(1, 20), (0, 10)] []) (1, 20) [] [(0, 10)] rfl
    have h4 : PoolStep 2 (fun x : Int => x)
        (PoolState.mk (β := Int) [] [((0 : Nat), (10 : Int))] [(1, 20)])
        (PoolState.mk [] [] [(1, 20), (0, 10)]) :=
      PoolStep.finish (PoolState.mk [] [(0, 10)] [(1, 20)]) (0, 10) [] [] rfl
    exact PoolReach.tail _ _ _
      (PoolReach.tail _ _ _
        (PoolReach.tail _ _ _
          (PoolReach.tail _ _ _ (PoolReach.refl _) h1) h2) h3) h4

/-- Witness for C9: one worker squaring the single input 3 publishes [9],
tagged [0], in submission order. -/
theorem single_worker_order_witness :
    (PoolState.mk (α := Int) (β := Int) [] [] [(0, 9)]).output.map Prod.snd
      = ([3] : List Int).map square ∧
    (PoolState.mk (α := Int) (β := Int) [] [] [(0, 9)]).output.map Prod.fst
      = List.range ([3] : List Int).length := by
  have h1 : PoolStep 1 square (initPool [(3 : Int)])
      (PoolState.mk [] [(0, 3)] []) :=
    PoolStep.take (initPool [(3 : Int)]) (0, 3) [] (by decide) rfl
  have h2 : PoolStep 1 square (PoolState.mk (β := Int) [] [(0, (3 : Int))] [])
      (PoolState.mk [] [] [(0, 9)]) :=
    PoolStep.finish (PoolState.mk [] [(0, 3)] []) (0, 3) [] [] rfl
  have hr : PoolReach 1 square (initPool [(3 : Int)])
      (PoolState.mk [] [] [(0, 9)]) :=
    PoolReach.tail _ _ _ (PoolReach.tail _ _ _ (PoolReach.refl _) h1) h2
  exact (single_worker_order square [3] _ hr ⟨rfl, rfl⟩).1

/-- C2: a two-stage pipeline whose first stage doubles and whose second stage
squares, fed the inputs [2, 3], publishes in every complete run exactly the
values 16 and 36, in some order, and nothing else. -/
theorem two_stage_double_square {W1 W2 : Nat} (h1 : 1 ≤ W1) (h2 : 1 ≤ W2)
    (s1 : PoolState Int Int) (hr1 : PoolReach W1 double (initPool [2, 3]) s1)
    (ht1 : s1.terminal) (s2 : PoolState Int Int)
    (hr2 : PoolReach W2 square (initPool (s1.output.map Prod.snd)) s2)
    (ht2 : s2.terminal) :
    (↑(s2.output.map Prod.snd) : Multiset Int) = {16, 36} := by
  have hv1 := pool_output_values hr1 ht1
  have hv2 := pool_output_values hr2 ht2
  rw [hv2, hv1]
  decide

/-- Witness for C2: both stages run with one worker; stage 1 turns [2, 3]
into Results valued [4, 6] and stage 2 turns those into [16, 36]. -/
theorem two_stage_double_square_witness :
    (↑((PoolState.mk (α := Int) (β := Int) [] [] [(0, 16), (1, 36)]).output.map
        Prod.snd) : Multiset Int) = {16, 36} := by
  have a1 : PoolStep 1 double (initPool [(2 : Int), 3])
      (PoolState.mk [(1, 3)] [(0, 2)] []) :=
    PoolStep.take (initPool [(2 : Int), 3]) (0, 2) [(1, 3)] (by decide) rfl
  have a2 : PoolStep 1 double
      (PoolState.mk (β := Int) [((1 : Nat), (3 : Int))] [(0, 2)] [])
      (PoolState.mk [(1, 3)] [] [(0, 4)]) :=
    PoolStep.finish (PoolState.mk [(1, 3)] [(0, 2)] []) (0, 2) [] [] rfl
  have a3 : PoolStep 1 double
      (PoolState.mk [((1 : Nat), (3 : Int))] [] [((0 : Nat), (4 : Int))])
      (PoolState.mk [] [(1, 3)] [(0, 4)]) :=
    PoolStep.take (PoolState.mk [(1, 3)] [] [(0, 4)]) (1, 3) [] (by decide) rfl
  have a4 : PoolStep 1 double
      (PoolState.mk [] [((1 : Nat), (3 : Int))] [((0 : Nat), (4 : Int))])
      (PoolState.mk [] [] [(0, 4), (1, 6)]) :=
    PoolStep.finish (PoolState.mk [] [(1, 3)] [(0, 4)]) (1, 3) [] [] rfl
  have hr1 : PoolReach 1 double (initPool [(2 : Int), 3])
      (PoolState.mk [] [] [(0, 4), (1, 6)]) :=
    PoolReach.tail _ _ _
      (PoolReach.tail _ _ _
        (PoolReach.tail _ _ _
          (PoolReach.tail _ _ _ (PoolReach.refl _) a1) a2) a3) a4
  have b1 : PoolStep 1 square (initPool [(4 : Int), 6])
      (PoolState.mk [(1, 6)] [(0, 4)] []) :=
    PoolStep.take (initPool [(4 : Int), 6]) (0, 4) [(1, 6)] (by decide) rfl
  have b2 : PoolStep 1 square
      (PoolState.mk (β := Int) [((1 : Nat), (6 : Int))] [(0, 4)] [])
      (PoolState.mk [(1, 6)] [] [(0, 16)]) :=
    PoolStep.finish (PoolState.mk [(1, 6)] [(0, 4)] []) (0, 4) [] [] rfl
  have b3 : PoolStep 1 square
      (PoolState.mk [((1 : Nat), (6 : Int))] [] [((0 : Nat), (16 : Int))])
      (PoolState.mk [] [(1, 6)] [(0, 16)]) :=
    PoolStep.take (PoolState.mk [(1, 6)] [] [(0, 16)]) (1, 6) [] (by decide) rfl
  have b4 : PoolStep 1 square
      (PoolState.mk [] [((1 : Nat), (6 : Int))] [((0 : Nat), (16 : Int))])
      (PoolState.mk [] [] [(0, 16), (1, 36)]) :=
    PoolStep.finish (PoolState.mk [] [(1, 6)] [(0, 16)]) (1, 6) [] [] rfl
  have hr2 : PoolReach 1 square (initPool [(4 : Int), 6])
      (PoolState.mk [] [] [(0, 16), (1, 36)]) :=
    PoolReach.tail _ _ _
      (PoolReach.tail _ _ _
        (PoolReach.tail _ _ _
          (PoolReach.tail _ _ _ (PoolReach.refl _) b1) b2) b3) b4
  exact two_stage_double_square (by decide) (by decide)
    (PoolState.mk [] [] [(0, 4), (1, 6)]) hr1 ⟨rfl, rfl⟩
    (PoolState.mk [] [] [(0, 16), (1, 36)]) hr2 ⟨rfl, rfl⟩

/-- One fan-in step neither drops nor duplicates an item: the bag of items
accounted for is unchanged. -/
theorem fanBag_step {α : Type} {M : Nat} {c d : FanConfig α M}
    (h : FanStep M c d) : fanBag d = fanBag c := by
  cases h with
  | closeUp i hop => rfl
  | pump i x rest hdone hup =>
    show (↑(c.out ++ [x]) : Multiset α)
        + ∑ j, (↑(Function.update c.fs.up i rest j) : Multiset α)
      = ↑c.out + ∑ j, (↑(c.fs.up j) : Multiset α)
    have hfun : (fun j => (↑(Function.update c.fs.up i rest j) : Multiset α))
        = Function.update (fun j => (↑(c.fs.up j) : Multiset α)) i ↑rest := by
      funext j
      by_cases hj : j = i
      · subst hj; simp [Function.update]
      · simp [Function.update, hj]
    rw [hfun, Finset.sum_update_of_mem (Finset.mem_univ i),
      Finset.sum_eq_sum_diff_singleton_add (Finset.mem_univ i)
        (fun j => (↑(c.fs.up j) : Multiset α)),
      hup]
    simp only [← Multiset.coe_add, ← Multiset.cons_coe, ← Multiset.singleton_add,
      Multiset.coe_nil]
    abel
  | relayClose i hdone hcl hup => rfl

/-- A fan-in run preserves the bag of items accounted for. -/
theorem fanBag_reach {α : Type} {M : Nat} {c d : FanConfig α M}
    (h : FanReach M c d) : fanBag d = fanBag c := by
  induction h with
  | refl => rfl
  | tail d e _ hstep ih => rw [fanBag_step hstep, ih]

/-- Along any fan-in run, a relay is done only after its upstream closed and
was fully drained. -/
theorem fan_done_inv {α : Type} {M : Nat} {us : Fin M → List α}
    {c : FanConfig α M} (h : FanReach M (initFan us) c) : FanDoneInv c := by
  induction h with
  | refl => intro i hi; simp [initFan] at hi
  | tail d e _ hstep ih =>
    cases hstep with
    | closeUp i hop =>
      intro j hj
      rcases ih j hj with ⟨h1, h2⟩
      refine ⟨h1, ?_⟩
      by_cases hji : j = i
      · subst hji; simp [Function.update]
      · simpa [Function.update, hji] using h2
    | pump i x rest hdone hup =>
      intro j hj
      rcases ih j hj with ⟨h1, h2⟩
      refine ⟨?_, h2⟩
      by_cases hji : j = i
      · subst hji; rw [hdone] at hj; exact absurd hj (by simp)
      · simpa [Function.update, hji] using h1
    | relayClose i hdone hcl hup =>
      intro j hj
      by_cases hji : j = i
      · subst hji; exact ⟨hup, hcl⟩
      · have hj2 : d.fs.relayDone j = true := by
          simpa [Function.update, hji] using hj
        exact ih j hj2

/-- C7: for a FanIn over M ≥ 1 upstreams, under every closing order, the
merged output is closed only when all M upstreams have closed, at which point
it holds exactly the items of all upstreams — the same bag, hence the summed
count, nothing dropped and nothing duplicated; and conversely whenever every
upstream has closed and the fan-in can take no further step, the output is
closed. -/
theorem fanin_close_iff_count {α : Type} {M : Nat} (hM : 1 ≤ M)
    (us : Fin M → List α) (c : FanConfig α M)
    (h : FanReach M (initFan us) c) :
    (c.outClosed → (∀ i, c.fs.upClosed i = true) ∧
      (↑c.out : Multiset α) = ∑ i, (↑(us i) : Multiset α) ∧
      c.out.length = ∑ i, (us i).length) ∧
    ((∀ i, c.fs.upClosed i = true) → (∀ d, ¬ FanStep M c d) → c.outClosed) := by
  constructor
  · intro hcl
    have hdone := fan_done_inv h
    have hup : ∀ i, c.fs.up i = [] := fun i => (hdone i (hcl i)).1
    have hbag := fanBag_reach h
    have hout : (↑c.out : Multiset α) = ∑ i, (↑(us i) : Multiset α) := by
      have hc : fanBag c = ↑c.out := by
        simp [fanBag, hup]
      have hi : fanBag (initFan us) = ∑ i, (↑(us i) : Multiset α) := by
        simp [fanBag, initFan]
      rw [hc, hi] at hbag
      exact hbag
    refine ⟨fun i => (hdone i (hcl i)).2, hout, ?_⟩
    have := congrArg Multiset.card hout
    simpa [map_sum Multiset.card (fun i => (↑(us i) : Multiset α)) Finset.univ]
      using this
  · intro hup hnostep
    intro i
    by_contra hbad
    have hdone : c.fs.relayDone i = false := by
      cases hx : c.fs.relayDone i with
      | true => exact absurd hx hbad
      | false => rfl
    cases hcase : c.fs.up i with
    | nil => exact hnostep _ (FanStep.relayClose c i hdone (hup i) hcase)
    | cons x rest => exact hnostep _ (FanStep.pump c i x rest hdone hcase)

/-- Witness for C7: one upstream holding [5]; it closes, the relay pumps the
item and observes the close, and the merged output [5] has the summed
length. -/
theorem fanin_close_iff_count_witness :
    ([5] : List Int).length = ∑ i : Fin 1, ((fun _ : Fin 1 => ([5] : List Int)) i).length := by
  have s1 : FanStep 1 (initFan (fun _ : Fin 1 => ([5] : List Int)))
      ⟨⟨fun _ => [5], Function.update (fun _ => false) 0 true, fun _ => false⟩, []⟩ :=
    FanStep.closeUp _ 0 rfl
  have s2 : FanStep 1
      (⟨⟨fun _ => [5], Function.update (fun _ => false) 0 true, fun _ => false⟩, []⟩ :
        FanConfig Int 1)
      ⟨⟨Function.update (fun _ => [5]) 0 [],
        Function.update (fun _ => false) 0 true, fun _ => false⟩, [5]⟩ :=
    FanStep.pump _ 0 5 [] rfl rfl
  have s3 : FanStep 1
      (⟨⟨Function.update (fun _ => [5]) 0 [],
        Function.update (fun _ => false) 0 true, fun _ => false⟩, [5]⟩ :
        FanConfig Int 1)
      ⟨⟨Function.update (fun _ => [5]) 0 [],
        Function.update (fun _ => false) 0 true,
        Function.update (fun _ => false) 0 true⟩, [5]⟩ :=
    FanStep.relayClose _ 0 rfl (by simp [Function.update]) (by simp [Function.update])
  have hr : FanReach 1 (initFan (fun _ : Fin 1 => ([5] : List Int)))
      (⟨⟨Function.update (fun _ => [5]) 0 [],
        Function.update (fun _ => false) 0 true,
        Function.update (fun _ => false) 0 true⟩, [5]⟩ : FanConfig Int 1) :=
    FanReach.tail _ _ _ (FanReach.tail _ _ _ (FanReach.tail _ _ _ (FanReach.refl _) s1) s2) s3
  have hcl : (⟨⟨Function.update (fun _ => [5]) 0 [],
      Function.update (fun _ => false) 0 true,
      Function.update (fun _ => false) 0 true⟩, [5]⟩ : FanConfig Int 1).outClosed := by
    intro i
    have hi : i = 0 := Subsingleton.elim i 0
    subst hi
    simp [Function.update]
  exact ((fanin_close_iff_count (le_refl 1) (fun _ : Fin 1 => ([5] : List Int)) _ hr).1
    hcl).2.2

/-- The gen/sq invariant holds along every execution of the pipeline. -/
theorem gs_inv_reach (ns : List Int) (s : GSState)
    (h : GSReach (initGS ns) s) : GSInv ns s := by
  induction h with
  | refl =>
    refine ⟨0, by simp [initGS], Or.inl ⟨rfl, by simp [initGS]⟩, ?_, ?_⟩
    · intro hg; simp [initGS] at hg
    · intro ho; simp [initGS] at ho
  | tail t u _ hstep ih =>
    rcases ih with ⟨k, hout, hbranch, hgen, houtc⟩
    cases hstep with
    | send n rest hc hts =>
      rcases hbranch with ⟨hcn, htsd⟩ | ⟨m, hcm, _⟩
      · refine ⟨k, hout, Or.inr ⟨n, rfl, ?_⟩, ?_, houtc⟩
        · rw [← htsd, hts]
        · intro hg
          have h1 := (hgen hg).1
          rw [hts] at h1
          exact absurd h1 (by simp)
      · rw [hcm] at hc
        exact absurd hc (by simp)
    | genClose hts hc hgf =>
      exact ⟨k, hout, hbranch, fun _ => ⟨hts, hc⟩, fun _ => rfl⟩
    | recvEmit n hc =>
      rcases hbranch with ⟨hcn, _⟩ | ⟨m, hcm, hdrop⟩
      · rw [hcn] at hc
        exact absurd hc (by simp)
      · have hmn : m = n := by
          rw [hcm] at hc
          injection hc
        have htk := take_succ_of_drop_cons k ns n t.toSend (hmn ▸ hdrop)
        refine ⟨k + 1, ?_, Or.inl ⟨rfl, htk.2.symm⟩, ?_, houtc⟩
        · show t.out ++ [n * n] = (ns.take (k + 1)).map (fun n => n * n)
          rw [htk.1, hout, List.map_append, List.map_cons, List.map_nil]
        · intro hg
          exact ⟨(hgen hg).1, rfl⟩
    | sqClose hg hc hof =>
      exact ⟨k, hout, hbranch, fun _ => hgen hg, fun _ => hg⟩

/-- C10: the two-stage channel pipeline sq(gen(ns...)) refines the naive
sequential map: whenever its output has been closed it has emitted exactly
the squares of ns, in order and of the same length; and from any point where
neither goroutine can move, the output is closed. -/
theorem pipeline_refines_seq_map (ns : List Int) (s : GSState)
    (h : GSReach (initGS ns) s) :
    (s.outClosed = true → s.out = naiveSquareMap ns ∧ s.out.length = ns.length) ∧
    ((∀ t, ¬ GSStep s t) → s.outClosed = true) := by
  constructor
  · intro ho
    rcases gs_inv_reach ns s h with ⟨k, hout, hbranch, hgen, houtc⟩
    have hg := houtc ho
    have hts := (hgen hg).1
    have hc := (hgen hg).2
    have hdrop : ns.drop k = [] := by
      rcases hbranch with ⟨_, htsd⟩ | ⟨m, hcm, _⟩
      · rw [← htsd]; exact hts
      · rw [hcm] at hc; simp at hc
    have htake : ns.take k = ns :=
      List.take_of_length_le (List.drop_eq_nil_iff.mp hdrop)
    rw [hout, htake]
    exact ⟨rfl, by simp [naiveSquareMap]⟩
  · intro hns
    by_contra hof
    have hof2 : s.outClosed = false := by
      cases hx : s.outClosed with
      | true => exact absurd hx hof
      | false => rfl
    cases hc : s.chan with
    | some n => exact hns _ (GSStep.recvEmit s n hc)
    | none =>
      cases hts : s.toSend with
      | cons n rest => exact hns _ (GSStep.send s n rest hc hts)
      | nil =>
        cases hg : s.genClosed with
        | false => exact hns _ (GSStep.genClose s hts hc hg)
        | true => exact hns _ (GSStep.sqClose s hg hc hof2)

/-- Witness for C10: on input [2, 3], one complete execution of the pipeline
emits [4, 9] and closes; the theorem equates that with the naive map. -/
theorem pipeline_refines_seq_map_witness :
    (GSState.mk [] none true [4, 9] true).out = naiveSquareMap [2, 3] ∧
    (GSState.mk [] none true [4, 9] true).out.length = ([2, 3] : List Int).length := by
  have g1 : GSStep (initGS [2, 3]) (GSState.mk [3] (some 2) false [] false) :=
    GSStep.send (initGS [2, 3]) 2 [3] rfl rfl
  have g2 : GSStep (GSState.mk [3] (some 2) false [] false)
      (GSState.mk [3] none false [4] false) :=
    GSStep.recvEmit (GSState.mk [3] (some 2) false [] false) 2 rfl
  have g3 : GSStep (GSState.mk [3] none false [4] false)
      (GSState.mk [] (some 3) false [4] false) :=
    GSStep.send (GSState.mk [3] none false [4] false) 3 [] rfl rfl
  have g4 : GSStep (GSState.mk [] (some 3) false [4] false)
      (GSState.mk [] none false [4, 9] false) :=
    GSStep.recvEmit (GSState.mk [] (some 3) false [4] false) 3 rfl
  have g5 : GSStep (GSState.mk [] none false [4, 9] false)
      (GSState.mk [] none true [4, 9] false) :=
    GSStep.genClose (GSState.mk [] none false [4, 9] false) rfl rfl rfl
  have g6 : GSStep (GSState.mk [] none true [4, 9] false)
      (GSState.mk [] none true [4, 9] true) :=
    GSStep.sqClose (GSState.mk [] none true [4, 9] false) rfl rfl rfl
  have hr : GSReach (initGS [2, 3]) (GSState.mk [] none true [4, 9] true) :=
    GSReach.tail _ _ _
      (GSReach.tail _ _ _
        (GSReach.tail _ _ _
          (GSReach.tail _ _ _
            (GSReach.tail _ _ _
              (GSReach.tail _ _ _ (GSReach.refl _) g1) g2) g3) g4) g5) g6
  exact (pipeline_refines_seq_map [2, 3] _ hr).1 rfl

/-- One Acquire attempt preserves the bucket invariant and advances the
last-refill instant to the attempt time. -/
theorem tryAcquire_inv {C R : ℚ} (hC : 0 ≤ C) (hR : 0 ≤ R) (b : Bucket)
    (hb : BucketInv C R b) (now : ℚ) (hnow : b.lastTime ≤ now) :
    BucketInv C R (b.tryAcquire now).1 ∧ (b.tryAcquire now).1.lastTime = now := by
  obtain ⟨hcap, hrate, h0, hle, hsum⟩ := hb
  have hkey : (now - b.lastTime) * b.rate = R * now - R * b.lastTime := by
    rw [hrate]; ring
  have htk_le : min b.cap (b.tokens + (now - b.lastTime) * b.rate) ≤ C := by
    rw [← hcap]; exact min_le_left _ _
  have htk_ge : 0 ≤ min b.cap (b.tokens + (now - b.lastTime) * b.rate) := by
    apply le_min
    · rw [hcap]; exact hC
    · have : 0 ≤ (now - b.lastTime) * b.rate := by
        apply mul_nonneg
        · linarith
        · rw [hrate]; exact hR
      linarith
  have htk_sum : (b.successes : ℚ)
      + min b.cap (b.tokens + (now - b.lastTime) * b.rate) ≤ C + R * now := by
    have hm : min b.cap (b.tokens + (now - b.lastTime) * b.rate)
        ≤ b.tokens + (now - b.lastTime) * b.rate := min_le_right _ _
    linarith
  simp only [Bucket.tryAcquire, Bucket.refill]
  split_ifs with hif
  · refine ⟨⟨hcap, hrate, ?_, ?_, ?_⟩, rfl⟩
    · simp only at hif ⊢
      linarith
    · simp only at hif ⊢
      linarith
    · push_cast
      simp only at hif ⊢
      linarith
  · exact ⟨⟨hcap, hrate, htk_ge, htk_le, htk_sum⟩, rfl⟩

/-- Running Acquire attempts at nondecreasing timestamps, all at most t,
preserves the bucket invariant and keeps the last-refill instant at most t. -/
theorem runAcquires_inv {C R : ℚ} (hC : 0 ≤ C) (hR : 0 ≤ R) (t : ℚ) :
    ∀ (us : List ℚ) (b : Bucket), BucketInv C R b →
      List.Chain (· ≤ ·) b.lastTime us → b.lastTime ≤ t → (∀ u ∈ us, u ≤ t) →
      BucketInv C R (b.runAcquires us) ∧ (b.runAcquires us).lastTime ≤ t := by
  intro us
  induction us with
  | nil =>
    intro b hb _ hbt _
    exact ⟨hb, hbt⟩
  | cons u rest ih =>
    intro b hb hchain hbt hall
    cases hchain with
    | cons hbu hrest =>
      have step := tryAcquire_inv hC hR b hb u hbu
      show BucketInv C R (((b.tryAcquire u).1).runAcquires rest) ∧ _
      apply ih (b.tryAcquire u).1 step.1
      · rw [step.2]; exact hrest
      · rw [step.2]; exact hall u (by simp)
      · intro v hv; exact hall v (by simp [hv])

/-- C4: a RateLimiter of capacity C and rate R refilled lazily as
tokens = min(capacity, tokens + elapsed*rate), starting from a full bucket:
over any nondecreasing schedule of Acquire attempts within the window [0, t]
the number of successes is at most C + ceil(R*t), and the token count never
exceeds C at any point of the run. -/
theorem ratelimiter_window_bound (C : Nat) (R t : ℚ) (us : List ℚ)
    (hR : 0 ≤ R) (ht : 0 ≤ t) (hchain : List.Chain (· ≤ ·) 0 us)
    (hall : ∀ u ∈ us, u ≤ t) :
    (((fullBucket C R).runAcquires us).successes : Int) ≤ C + ⌈R * t⌉ ∧
    ∀ k, ((fullBucket C R).runAcquires (us.take k)).tokens ≤ C := by
  have hC : (0 : ℚ) ≤ C := Nat.cast_nonneg C
  have hinv0 : BucketInv C R (fullBucket C R) :=
    ⟨rfl, rfl, hC, le_refl _, by simp [fullBucket]⟩
  have hlast0 : (fullBucket C R).lastTime = 0 := rfl
  constructor
  · have h := runAcquires_inv hC hR t us (fullBucket C R) hinv0
      (by rw [hlast0]; exact hchain) (by rw [hlast0]; exact ht) hall
    obtain ⟨⟨_, _, h0, _, hsum⟩, hlt⟩ := h
    have hq : ((((fullBucket C R).runAcquires us).successes : ℚ)) ≤ C + R * t := by
      have hRl : R * ((fullBucket C R).runAcquires us).lastTime ≤ R * t :=
        mul_le_mul_of_nonneg_left hlt hR
      linarith
    have hz : ((((fullBucket C R).runAcquires us).successes : Int) - C : Int) ≤ ⌈R * t⌉ := by
      have h1 : (((((fullBucket C R).runAcquires us).successes : Int) - C : Int) : ℚ)
          ≤ R * t := by
        push_cast
        linarith
      calc ((((fullBucket C R).runAcquires us).successes : Int) - C : Int)
          = ⌈(((((fullBucket C R).runAcquires us).successes : Int) - C : Int) : ℚ)⌉ :=
            (Int.ceil_intCast _).symm
        _ ≤ ⌈R * t⌉ := Int.ceil_le_ceil h1
    linarith
  · intro k
    have hchaink : List.Chain (· ≤ ·) 0 (us.take k) := chain_take us 0 hchain k
    have hallk : ∀ u ∈ us.take k, u ≤ t := fun u hu => hall u (List.take_subset k us hu)
    have h := runAcquires_inv hC hR t (us.take k) (fullBucket C R) hinv0
      (by rw [hlast0]; exact hchaink) (by rw [hlast0]; exact ht) hallk
    exact h.1.2.2.2.1

/-- Witness for C4: capacity 1, rate 1, attempts at times 0 and 1 within the
window [0, 1]: at most 1 + ceil(1) = 2 successes, and after the first attempt
the token count is at most 1. -/
theorem ratelimiter_window_bound_witness :
    (((fullBucket 1 1).runAcquires [0, 1]).successes : Int) ≤ 1 + ⌈(1 : ℚ) * 1⌉ ∧
    ((fullBucket 1 1).runAcquires (([0, 1] : List ℚ).take 1)).tokens ≤ 1 :=
  ⟨(ratelimiter_window_bound 1 1 1 [0, 1] (by norm_num) (by norm_num)
      (by norm_num) (by norm_num)).1,
   (ratelimiter_window_bound 1 1 1 [0, 1] (by norm_num) (by norm_num)
      (by norm_num) (by norm_num)).2 1⟩

/-- C8: the Pipeline lifecycle follows
Created → Running → \x7bDraining → Completed, Cancelling → Cancelled\x7d with
only forward transitions (the rank strictly increases, so no step returns to
an earlier state), no transition leaves Cancelled (cancellation is one-shot),
a second Cancel changes nothing (idempotent), and Cancel in Created moves
directly to Cancelled with no worker spawned. -/
theorem pipeline_state_machine (W : Nat) :
    (∀ p q : Pipeline, PipeStep W p q → p.st.rank < q.st.rank) ∧
    (∀ (w : Nat) (q : Pipeline), ¬ PipeStep W ⟨.cancelled, w⟩ q) ∧
    (∀ s : PipeState, s.cancel.cancel = s.cancel) ∧
    PipeStep W ⟨.created, 0⟩ ⟨.cancelled, 0⟩ ∧
    (∀ q : Pipeline, PipeStep W ⟨.created, 0⟩ q → q.st = .cancelled → q.workers = 0) := by
  refine ⟨?_, ?_, ?_, ?_, ?_⟩
  · intro p q h
    cases h <;> simp [PipeState.rank]
  · intro w q h
    cases h
  · intro s
    cases s <;> rfl
  · exact PipeStep.cancelFromCreated
  · intro q h hst
    cases h <;> simp_all

/-- Witness for C8 at W = 3: Start is a step and it strictly raises the rank. -/
theorem pipeline_state_machine_witness :
    (Pipeline.mk .created 0).st.rank < (Pipeline.mk .running 3).st.rank :=
  (pipeline_state_machine 3).1 _ _ PipeStep.start

/-- C3: for a BoundedSemaphore of capacity K, every held count reachable by
any interleaving of acquires and releases satisfies 0 ≤ C ≤ K. -/
theorem semaphore_invariant (K : Int) (hK : 0 ≤ K) (c : Int)
    (h : SemReach K c) : 0 ≤ c ∧ c ≤ K := by
  induction h with
  | init => exact ⟨le_refl 0, hK⟩
  | step a b _ hs ih =>
    cases hs with
    | acquire ha => omega
    | release ha => omega

/-- Witness for C3: capacity 2, after two acquires the held count is 2 and
the invariant gives 0 ≤ 2 ≤ 2. -/
theorem semaphore_invariant_witness : 0 ≤ (2 : Int) ∧ (2 : Int) ≤ 2 :=
  semaphore_invariant 2 (by decide) 2
    (SemReach.step 1 2
      (SemReach.step 0 1 SemReach.init (SemStep.acquire 0 (by decide)))
      (SemStep.acquire 1 (by decide)))

/-- C6: on a closed BoundedQueue, Put fails with a ClosedError, while Gets
still drain every item buffered before the close, in order, leaving an empty
closed queue whose next Get reports closed-and-empty. -/
theorem bqueue_closed_put_get {α : Type} (q : BQueue α) (x : α)
    (h : q.closed = true) :
    q.put x = PutResult.closedError ∧
    q.drainAll.1 = q.buf ∧
    q.drainAll.2.buf = [] ∧
    q.drainAll.2.closed = true ∧
    q.drainAll.2.get = (GetResult.closedEmpty, q.drainAll.2) := by
  have hd : q.drainAll = (q.buf, ⟨q.cap, [], q.closed⟩) := by
    rcases q with ⟨cap, buf, closed⟩
    cases h
    exact drainAll_closed buf cap
  refine ⟨?_, ?_, ?_, ?_, ?_⟩
  · simp [BQueue.put, h]
  · simp [hd]
  · simp [hd]
  · simp [hd, h]
  · simp [hd, BQueue.get, h]

/-- Witness for C6: a closed queue of capacity 2 buffering two items rejects
a Put and drains both items in order. -/
theorem bqueue_closed_put_get_witness :
    (BQueue.mk (α := Int) 2 [1, 2] true).put 5 = PutResult.closedError ∧
    (BQueue.mk (α := Int) 2 [1, 2] true).drainAll.1 = [1, 2] ∧
    (BQueue.mk (α := Int) 2 [1, 2] true).drainAll.2.buf = [] := by
  have h := bqueue_closed_put_get (BQueue.mk (α := Int) 2 [1, 2] true) 5 rfl
  exact ⟨h.1, h.2.1, h.2.2.1⟩

/-- C5: a transform that terminates abruptly on one task is recovered for
that task alone: the safe worker loop converts the failure into a Result
carrying the error, keeps running, and every other task (before and after)
produces exactly the Result it would have produced anyway, one Result per
task. -/
theorem worker_recovers_per_task {α β : Type} (d : α → Outcome β)
    (ts1 : List (Nat × α)) (t : Nat × α) (ts2 : List (Nat × α)) (m : String)
    (h : d t.2 = .panicked m) :
    workerLoopSafe d (ts1 ++ t :: ts2)
      = workerLoopSafe d ts1 ++ (t.1, Except.error m) :: workerLoopSafe d ts2 ∧
    (workerLoopSafe d (ts1 ++ t :: ts2)).length = ts1.length + 1 + ts2.length := by
  have hs : safelyDo d t = (t.1, Except.error m) := by
    simp [safelyDo, h]
  constructor
  · rw [workerLoopSafe_append]
    simp [workerLoopSafe, hs]
  · rw [workerLoopSafe_length]
    simp only [List.length_append, List.length_cons]
    omega

/-- Witness for C5: a transform that panics exactly on input 0, run on three
tasks whose middle one is 0, recovers the middle failure and processes the
other two tasks normally. -/
theorem worker_recovers_per_task_witness :
    workerLoopSafe (fun x : Int => if x = 0 then .panicked "boom" else .ok x)
        ([(0, 1)] ++ (1, 0) :: [(2, 3)])
      = workerLoopSafe (fun x : Int => if x = 0 then .panicked "boom" else .ok x) [(0, 1)]
          ++ (1, Except.error "boom")
            :: workerLoopSafe (fun x : Int => if x = 0 then .panicked "boom" else .ok x) [(2, 3)] :=
  (worker_recovers_per_task
    (fun x : Int => if x = 0 then .panicked "boom" else .ok x)
    [(0, 1)] (1, 0) [(2, 3)] "boom" (by decide)).1

end GoGuide
